import Mathlib

/-!
Shallow embedding of `mio991/binary-tree` (`src/lib.rs`): a key-value map
stored as a binary search tree in a flat growable array with implicit
child indexing (`left i = 2i+1`, `right i = 2i+2`), plus its non-recursive
in-order index generator and the consuming in-order iterator.

The backing `Box<[Option<(K, V)>]>` is modelled as `List (Option (K × V))`;
`usize` indices are `Nat`.  The mutually-observable behaviour of each Rust
method is translated into a pure function; `insert`'s grow-and-retry
recursion (not structurally terminating for a hypothetical
zero-capacity tree, which the constructors make unreachable) is expressed
with an explicit retry budget `insertAux`, shown sufficient below.
-/

namespace BinTreeRepo

/-! The `BiTree` module of index arithmetic from the source. -/

namespace BiTree

/-- `BiTree::is_right`: `index % 2 == 0`. -/
def is_right (index : Nat) : Bool := index % 2 == 0

/-- `BiTree::parrent` (spelling from the source). -/
def parrent (index : Nat) : Option Nat :=
  if index > 0 then
    some (if is_right index then (index - 2) / 2 else (index - 1) / 2)
  else
    none

/-- `BiTree::right`: `index * 2 + 2`. -/
def right (index : Nat) : Nat := index * 2 + 2

/-- `BiTree::left`: `index * 2 + 1`. -/
def left (index : Nat) : Nat := index * 2 + 1

end BiTree

/-- `BinaryTree<K, V>(Box<[Option<(K, V)>]>)`. -/
structure BinaryTree (K V : Type) where
  mem : List (Option (K × V))

namespace BinaryTree

variable {K V : Type}

/-- `BinaryTree::with_capacity`: clamps the capacity to at least 1 and
fills the array with empty slots. -/
def with_capacity (capacity : Nat) : BinaryTree K V :=
  ⟨List.replicate (Nat.max capacity 1) none⟩

/-- `BinaryTree::new`: default capacity 8. -/
def new : BinaryTree K V := with_capacity 8

/-- `BinaryTree::capacity`: the length of the backing array. -/
def capacity (t : BinaryTree K V) : Nat := t.mem.length

variable [LinearOrder K]

/-- The loop body of `BinaryTree::find_index`, with the mutable `index`
made an explicit argument: while the slot at `index` exists and is
occupied by a non-matching key, step to the left or right child. -/
def find_index_from (mem : List (Option (K × V))) (key : K) (index : Nat) : Nat :=
  match h : mem[index]? with
  | some (some (r_key, _)) =>
    if r_key = key then
      index
    else if key < r_key then
      find_index_from mem key (BiTree.left index)
    else
      find_index_from mem key (BiTree.right index)
  | some none => index
  | none => index
termination_by mem.length - index
decreasing_by
  all_goals
    have hlt : index < mem.length := by
      by_contra hc
      rw [List.getElem?_eq_none (by omega)] at h
      cases h
  · simp only [BiTree.left]; omega
  · simp only [BiTree.right]; omega

/-- `BinaryTree::find_index`: the walk starts at the root slot 0. -/
def find_index (t : BinaryTree K V) (key : K) : Nat :=
  find_index_from t.mem key 0

/-- `BinaryTree::grow`: double the capacity, moving every old slot's
content to the same index and filling the rest with empty slots. -/
def grow (t : BinaryTree K V) : BinaryTree K V :=
  ⟨(t.mem ++ List.replicate (t.capacity * 2) none).take (t.capacity * 2)⟩

/-- `BinaryTree::insert` with an explicit retry budget: each recursive
retry (after a growth) consumes one unit of `fuel`; `none` means the
budget was exhausted.  `insert_fuel_sufficient` below shows the budget
used by `insert` always suffices for trees of positive capacity. -/
def insertAux : Nat → BinaryTree K V → K → V → Option (BinaryTree K V × Option V)
  | 0, _, _, _ => none
  | fuel + 1, t, key, value =>
    let index := t.find_index key
    match t.mem[index]? with
    | some cell =>
      some (⟨t.mem.set index (some (key, value))⟩, cell.map Prod.snd)
    | none => insertAux fuel t.grow key value

/-- `BinaryTree::insert`: returns the updated tree together with the
previously stored value for the key, if any. -/
def insert (t : BinaryTree K V) (key : K) (value : V) : BinaryTree K V × Option V :=
  (insertAux (t.find_index key + 1) t key value).getD (t, none)

/-- `BinaryTree::get`. -/
def get (t : BinaryTree K V) (key : K) : Option V :=
  match t.mem[t.find_index key]? with
  | some cell => cell.map Prod.snd
  | none => none

end BinaryTree

/-- The in-order slot-index generator `BiTreeIndexIter` from the source. -/
structure BiTreeIndexIter where
  capacity : Nat
  stack : List Nat
  current : Option Nat

namespace BiTreeIndexIter

/-- `BiTreeIndexIter::new`. -/
def new (capacity : Nat) : BiTreeIndexIter :=
  ⟨capacity, [], some 0⟩

/-- `BiTreeIndexIter::left`: bounds-checked left child. -/
def left (s : BiTreeIndexIter) (node : Nat) : Option Nat :=
  let index := BiTree.left node
  if index < s.capacity then some index else none

/-- `BiTreeIndexIter::right`: bounds-checked right child. -/
def right (s : BiTreeIndexIter) (node : Nat) : Option Nat :=
  let index := BiTree.right node
  if index < s.capacity then some index else none

/-- The `while let Some(node) = self.current` phase of
`BiTreeIndexIter::next`: push the current node and descend to its
bounds-checked left child until none exists; returns the final stack. -/
def descend (s : BiTreeIndexIter) (node : Nat) (stack : List Nat) : List Nat :=
  match h : s.left node with
  | some nxt => descend s nxt (node :: stack)
  | none => node :: stack
termination_by s.capacity - node
decreasing_by
  simp only [left, BiTree.left] at h
  split at h
  · cases h; omega
  · cases h

/-- `BiTreeIndexIter::next`: drain `current` onto the stack by left
descents, then pop the stack, emitting the popped node and making its
bounds-checked right child the new current node. -/
def next (s : BiTreeIndexIter) : Option (Nat × BiTreeIndexIter) :=
  match (match s.current with
         | some node => s.descend node s.stack
         | none => s.stack) with
  | [] => none
  | node :: rest => some (node, ⟨s.capacity, rest, s.right node⟩)

end BiTreeIndexIter

/-- The index stream obtained by calling `BiTreeIndexIter.next` up to
`fuel` times. -/
def runIter : Nat → BiTreeIndexIter → List Nat
  | 0, _ => []
  | fuel + 1, s =>
    match s.next with
    | none => []
    | some (i, s2) => i :: runIter fuel s2

namespace BinaryTree

variable {K V : Type}

/-- `BinaryTreeIter::next`, iterated: at each step pull the next index
from the generator; if the slot there is occupied, take its pair out
(leaving the slot empty) and yield it, otherwise continue.  Returns the
yielded pairs and the final backing array.  One unit of `fuel` is
consumed per generator pull, matching `drain`'s sufficient budget. -/
def consumeAux : Nat → List (Option (K × V)) → BiTreeIndexIter →
    List (K × V) × List (Option (K × V))
  | 0, mem, _ => ([], mem)
  | fuel + 1, mem, it =>
    match it.next with
    | none => ([], mem)
    | some (index, it2) =>
      match mem[index]? with
      | some (some res) =>
        let rest := consumeAux fuel (mem.set index none) it2
        (res :: rest.1, rest.2)
      | _ => consumeAux fuel mem it2

/-- `IntoIterator::into_iter` followed by full consumption of
`BinaryTreeIter`: the yielded pairs and the final backing array. -/
def drain (t : BinaryTree K V) : List (K × V) × List (Option (K × V)) :=
  consumeAux (t.capacity + 1) t.mem (BiTreeIndexIter.new t.capacity)

/-- The pairs yielded by fully consuming `into_iter`. -/
def toList (t : BinaryTree K V) : List (K × V) := (drain t).1

variable [LinearOrder K]

/-- Fold a sequence of `insert` calls over a freshly constructed tree:
the trees reachable through the public API. -/
def buildTree (c : Nat) (ops : List (K × V)) : BinaryTree K V :=
  ops.foldl (fun t kv => (t.insert kv.1 kv.2).1) (with_capacity c)

end BinaryTree

/-! ### Specification-side notions used to state and prove the claims -/

/-- The chain of a slot index together with all its ancestors up to the
root, via the implicit-tree parent map (`parrent i = (i-1)/2`). -/
def ancChain : Nat → List Nat
  | 0 => [0]
  | n + 1 => (n + 1) :: ancChain (n / 2)
decreasing_by omega

/-- The in-order sequence of all slot indices below `cap` in the subtree
rooted at `i` of the implicit binary tree. -/
def inorderIdx (cap : Nat) (i : Nat) : List Nat :=
  if i < cap then
    inorderIdx cap (BiTree.left i) ++ i :: inorderIdx cap (BiTree.right i)
  else
    []
termination_by cap - i
decreasing_by
  · simp only [BiTree.left]; omega
  · simp only [BiTree.right]; omega


/-! ### Ancestor chains in the implicit tree -/

theorem ancChain_zero : ancChain 0 = [0] := by
  simp [ancChain]

theorem ancChain_succ (n : Nat) : ancChain (n + 1) = (n + 1) :: ancChain (n / 2) := by
  rw [ancChain]

theorem self_mem_ancChain (x : Nat) : x ∈ ancChain x := by
  cases x with
  | zero => simp [ancChain_zero]
  | succ n => simp [ancChain_succ]

theorem le_of_mem_ancChain : ∀ {y x : Nat}, x ∈ ancChain y → x ≤ y := by
  intro y
  induction y using Nat.strong_induction_on with
  | _ y ih =>
    cases y with
    | zero => intro x hx; simp [ancChain_zero] at hx; omega
    | succ n =>
      intro x hx
      rw [ancChain_succ] at hx
      rcases List.mem_cons.mp hx with rfl | hx
      · exact Nat.le_refl _
      · have := ih (n / 2) (by omega) hx
        omega

theorem mem_ancChain_trans : ∀ {z x y : Nat},
    x ∈ ancChain y → y ∈ ancChain z → x ∈ ancChain z := by
  intro z
  induction z using Nat.strong_induction_on with
  | _ z ih =>
    cases z with
    | zero =>
      intro x y hxy hyz
      simp [ancChain_zero] at hyz
      subst hyz
      exact hxy
    | succ n =>
      intro x y hxy hyz
      rw [ancChain_succ] at hyz ⊢
      rcases List.mem_cons.mp hyz with rfl | hyz
      · rwa [ancChain_succ] at hxy
      · exact List.mem_cons_of_mem _ (ih (n / 2) (by omega) hxy hyz)

theorem zero_mem_ancChain : ∀ (x : Nat), 0 ∈ ancChain x := by
  intro x
  induction x using Nat.strong_induction_on with
  | _ x ih =>
    cases x with
    | zero => simp [ancChain_zero]
    | succ n =>
      rw [ancChain_succ]
      exact List.mem_cons_of_mem _ (ih (n / 2) (by omega))

theorem eq_of_mem_ancChain_symm {x y : Nat}
    (hxy : x ∈ ancChain y) (hyx : y ∈ ancChain x) : x = y := by
  have h1 := le_of_mem_ancChain hxy
  have h2 := le_of_mem_ancChain hyx
  omega

theorem ancChain_left (i : Nat) :
    ancChain (BiTree.left i) = BiTree.left i :: ancChain i := by
  have h2 : i * 2 / 2 = i := by omega
  show ancChain (i * 2 + 1) = (i * 2 + 1) :: ancChain i
  rw [ancChain_succ, h2]

theorem ancChain_right (i : Nat) :
    ancChain (BiTree.right i) = BiTree.right i :: ancChain i := by
  have h2 : (i * 2 + 1) / 2 = i := by omega
  show ancChain (i * 2 + 1 + 1) = (i * 2 + 1 + 1) :: ancChain i
  rw [ancChain_succ, h2]

theorem mem_ancChain_of_left_mem {i j : Nat}
    (h : BiTree.left i ∈ ancChain j) : i ∈ ancChain j := by
  refine mem_ancChain_trans ?_ h
  rw [ancChain_left]
  exact List.mem_cons_of_mem _ (self_mem_ancChain i)

theorem mem_ancChain_of_right_mem {i j : Nat}
    (h : BiTree.right i ∈ ancChain j) : i ∈ ancChain j := by
  refine mem_ancChain_trans ?_ h
  rw [ancChain_right]
  exact List.mem_cons_of_mem _ (self_mem_ancChain i)

theorem child_mem_of_mem : ∀ {a i : Nat}, i ∈ ancChain a → i ≠ a →
    BiTree.left i ∈ ancChain a ∨ BiTree.right i ∈ ancChain a := by
  intro a
  induction a using Nat.strong_induction_on with
  | _ a ih =>
    cases a with
    | zero =>
      intro i hi hne
      simp [ancChain_zero] at hi
      exact absurd hi hne
    | succ n =>
      intro i hi hne
      rw [ancChain_succ] at hi
      rcases List.mem_cons.mp hi with rfl | hi
      · exact absurd rfl hne
      · by_cases hin : i = n / 2
        · subst hin
          by_cases hpar : n % 2 = 0
          · left
            have : BiTree.left (n / 2) = n + 1 := by
              simp only [BiTree.left]; omega
            rw [this]
            exact self_mem_ancChain _
          · right
            have : BiTree.right (n / 2) = n + 1 := by
              simp only [BiTree.right]; omega
            rw [this]
            exact self_mem_ancChain _
        · rcases ih (n / 2) (by omega) hi hin with h | h
          · exact Or.inl (by rw [ancChain_succ]; exact List.mem_cons_of_mem _ h)
          · exact Or.inr (by rw [ancChain_succ]; exact List.mem_cons_of_mem _ h)

theorem not_both_children_mem : ∀ {j i : Nat},
    ¬(BiTree.left i ∈ ancChain j ∧ BiTree.right i ∈ ancChain j) := by
  intro j
  induction j using Nat.strong_induction_on with
  | _ j ih =>
    cases j with
    | zero =>
      rintro i ⟨hl, _⟩
      simp [ancChain_zero, BiTree.left] at hl
    | succ n =>
      rintro i ⟨hl, hr⟩
      rw [ancChain_succ] at hl hr
      rcases List.mem_cons.mp hl with hl1 | hl2
      · rcases List.mem_cons.mp hr with hr1 | hr2
        · simp only [BiTree.left, BiTree.right] at hl1 hr1
          omega
        · have hn : n / 2 = i := by
            simp only [BiTree.left] at hl1; omega
          rw [hn] at hr2
          have := le_of_mem_ancChain hr2
          simp only [BiTree.right] at this
          omega
      · rcases List.mem_cons.mp hr with hr1 | hr2
        · have hn : n / 2 = i := by
            simp only [BiTree.right] at hr1; omega
          rw [hn] at hl2
          have := le_of_mem_ancChain hl2
          simp only [BiTree.left] at this
          omega
        · exact ih (n / 2) (by omega) ⟨hl2, hr2⟩

/-! ### Membership, nodup and range coverage of the in-order index list -/

theorem mem_inorderIdx (cap i j : Nat) :
    j ∈ inorderIdx cap i ↔ j < cap ∧ i ∈ ancChain j := by
  rw [inorderIdx]
  split
  · case isTrue hcap =>
    rw [List.mem_append, List.mem_cons,
      mem_inorderIdx cap (BiTree.left i) j, mem_inorderIdx cap (BiTree.right i) j]
    constructor
    · rintro (⟨hj, hm⟩ | rfl | ⟨hj, hm⟩)
      · exact ⟨hj, mem_ancChain_of_left_mem hm⟩
      · exact ⟨hcap, self_mem_ancChain _⟩
      · exact ⟨hj, mem_ancChain_of_right_mem hm⟩
    · rintro ⟨hj, hm⟩
      by_cases hij : i = j
      · exact Or.inr (Or.inl hij.symm)
      · rcases child_mem_of_mem hm hij with h | h
        · exact Or.inl ⟨hj, h⟩
        · exact Or.inr (Or.inr ⟨hj, h⟩)
  · case isFalse hcap =>
    simp only [List.not_mem_nil, false_iff]
    rintro ⟨hj, hm⟩
    have := le_of_mem_ancChain hm
    omega
termination_by cap - i
decreasing_by
  · simp only [BiTree.left]; omega
  · simp only [BiTree.right]; omega

theorem nodup_inorderIdx (cap i : Nat) : (inorderIdx cap i).Nodup := by
  rw [inorderIdx]
  split
  · case isTrue hcap =>
    rw [List.nodup_append]
    refine ⟨nodup_inorderIdx cap (BiTree.left i), ?_, ?_⟩
    · rw [List.nodup_cons]
      refine ⟨?_, nodup_inorderIdx cap (BiTree.right i)⟩
      intro hmem
      rw [mem_inorderIdx] at hmem
      have := le_of_mem_ancChain hmem.2
      simp only [BiTree.right] at this
      omega
    · intro a ha hb
      rw [mem_inorderIdx] at ha
      rcases List.mem_cons.mp hb with rfl | hb
      · have := le_of_mem_ancChain ha.2
        simp only [BiTree.left] at this
        omega
      · rw [mem_inorderIdx] at hb
        exact not_both_children_mem ⟨ha.2, hb.2⟩
  · case isFalse hcap => exact List.nodup_nil
termination_by cap - i
decreasing_by
  · simp only [BiTree.left]; omega
  · simp only [BiTree.right]; omega

theorem inorderIdx_perm_range (cap : Nat) :
    (inorderIdx cap 0).Perm (List.range cap) := by
  rw [List.perm_ext_iff_of_nodup (nodup_inorderIdx cap 0) (List.nodup_range cap)]
  intro a
  rw [mem_inorderIdx, List.mem_range]
  exact ⟨fun h => h.1, fun h => ⟨h, zero_mem_ancChain a⟩⟩

theorem length_inorderIdx (cap : Nat) : (inorderIdx cap 0).length = cap := by
  have := (inorderIdx_perm_range cap).length_eq
  simpa using this

/-! ### Correctness of the in-order index generator -/

/-- States of `BiTreeIndexIter` whose current node (if any) and stack
entries are in bounds; `new cap` for `cap ≥ 1` satisfies it and `next`
preserves it. -/
def GoodState (s : BiTreeIndexIter) : Prop :=
  (∀ n, s.current = some n → n < s.capacity) ∧ (∀ n ∈ s.stack, n < s.capacity)

/-- The indices the generator will emit for the current node alone. -/
def curDen (cap : Nat) : Option Nat → List Nat
  | some n => inorderIdx cap n
  | none => []

/-- The indices the generator will emit for the stack alone: each stack
entry, followed by the in-order walk of its right subtree. -/
def stackDen (cap : Nat) : List Nat → List Nat
  | [] => []
  | n :: rest => n :: (inorderIdx cap (BiTree.right n) ++ stackDen cap rest)

/-- All indices a generator state will emit. -/
def stateDen (s : BiTreeIndexIter) : List Nat :=
  curDen s.capacity s.current ++ stackDen s.capacity s.stack

theorem inorderIdx_pos {cap i : Nat} (h : i < cap) :
    inorderIdx cap i =
      inorderIdx cap (BiTree.left i) ++ i :: inorderIdx cap (BiTree.right i) := by
  rw [inorderIdx, if_pos h]

theorem inorderIdx_neg {cap i : Nat} (h : ¬ i < cap) : inorderIdx cap i = [] := by
  rw [inorderIdx, if_neg h]

theorem descend_bound (s : BiTreeIndexIter) (node : Nat) (stack : List Nat)
    (hn : node < s.capacity) (hs : ∀ m ∈ stack, m < s.capacity) :
    ∀ m ∈ s.descend node stack, m < s.capacity := by
  rw [BiTreeIndexIter.descend]
  split
  · case h_1 nxt h =>
    have hx : nxt = BiTree.left node ∧ nxt < s.capacity := by
      simp only [BiTreeIndexIter.left] at h
      split at h
      · cases h; exact ⟨rfl, by assumption⟩
      · cases h
    refine descend_bound s nxt (node :: stack) hx.2 ?_
    intro m hm
    rcases List.mem_cons.mp hm with rfl | hm
    · exact hn
    · exact hs m hm
  · case h_2 h =>
    intro m hm
    rcases List.mem_cons.mp hm with rfl | hm
    · exact hn
    · exact hs m hm
termination_by s.capacity - node
decreasing_by
  simp only [BiTree.left] at hx
  omega

theorem descend_den (s : BiTreeIndexIter) (node : Nat) (stack : List Nat)
    (hn : node < s.capacity) :
    stackDen s.capacity (s.descend node stack) =
      inorderIdx s.capacity node ++ stackDen s.capacity stack := by
  rw [BiTreeIndexIter.descend]
  split
  · case h_1 nxt h =>
    have hx : nxt = BiTree.left node ∧ nxt < s.capacity := by
      simp only [BiTreeIndexIter.left] at h
      split at h
      · cases h; exact ⟨rfl, by assumption⟩
      · cases h
    rw [descend_den s nxt (node :: stack) hx.2, hx.1]
    rw [inorderIdx_pos hn]
    simp [stackDen]
  · case h_2 h =>
    have hx : ¬ BiTree.left node < s.capacity := by
      simp only [BiTreeIndexIter.left] at h
      split at h
      · cases h
      · assumption
    rw [inorderIdx_pos hn, inorderIdx_neg hx]
    simp [stackDen]
termination_by s.capacity - node
decreasing_by
  simp only [BiTree.left] at hx
  omega

theorem curDen_right (s : BiTreeIndexIter) (node : Nat) :
    curDen s.capacity (s.right node) = inorderIdx s.capacity (BiTree.right node) := by
  simp only [BiTreeIndexIter.right]
  split
  · case isTrue h => rfl
  · case isFalse h =>
    rw [curDen, inorderIdx, if_neg h]

theorem next_spec (s : BiTreeIndexIter) (hg : GoodState s) :
    (s.next = none → stateDen s = []) ∧
    (∀ i s2, s.next = some (i, s2) → i < s.capacity ∧ s2.capacity = s.capacity ∧
      GoodState s2 ∧ stateDen s = i :: stateDen s2) := by
  have hstack : ∀ m ∈ (match s.current with
      | some node => s.descend node s.stack
      | none => s.stack), m < s.capacity := by
    cases hc : s.current with
    | none => simpa using hg.2
    | some node =>
      simpa using descend_bound s node s.stack (hg.1 node hc) hg.2
  have hden : stateDen s = stackDen s.capacity (match s.current with
      | some node => s.descend node s.stack
      | none => s.stack) := by
    cases hc : s.current with
    | none => simp [stateDen, hc, curDen]
    | some node =>
      rw [stateDen, hc]
      simpa using (descend_den s node s.stack (hg.1 node hc)).symm
  constructor
  · intro hnone
    rw [BiTreeIndexIter.next] at hnone
    rw [hden]
    split at hnone
    · case h_1 heq => rw [heq]; rfl
    · case h_2 => cases hnone
  · intro i s2 hsome
    rw [BiTreeIndexIter.next] at hsome
    split at hsome
    · case h_1 => cases hsome
    · case h_2 node rest heq =>
      cases hsome
      have hnode : i < s.capacity := hstack i (by rw [heq]; exact List.mem_cons_self _ _)
      refine ⟨hnode, rfl, ⟨?_, ?_⟩, ?_⟩
      · intro n hn
        simp only [BiTreeIndexIter.right] at hn
        split at hn
        · cases hn; assumption
        · cases hn
      · intro n hn
        exact hstack n (by rw [heq]; exact List.mem_cons_of_mem _ hn)
      · rw [hden, heq, stackDen, stateDen]
        simp only
        rw [curDen_right]

theorem runIter_good_mem : ∀ (fuel : Nat) (s : BiTreeIndexIter), GoodState s →
    ∀ i ∈ runIter fuel s, i < s.capacity := by
  intro fuel
  induction fuel with
  | zero => intro s hg i hi; simp [runIter] at hi
  | succ n ih =>
    intro s hg i hi
    rw [runIter] at hi
    cases hnext : s.next with
    | none => rw [hnext] at hi; simp at hi
    | some p =>
      obtain ⟨j, s2⟩ := p
      rw [hnext] at hi
      obtain ⟨hj, hcap2, hg2, _⟩ := (next_spec s hg).2 j s2 hnext
      rcases List.mem_cons.mp hi with rfl | hi
      · exact hj
      · have := ih s2 hg2 i hi
        omega

theorem runIter_eq_stateDen : ∀ (fuel : Nat) (s : BiTreeIndexIter), GoodState s →
    (stateDen s).length ≤ fuel → runIter fuel s = stateDen s := by
  intro fuel
  induction fuel with
  | zero =>
    intro s hg hf
    have h0 : stateDen s = [] := List.eq_nil_of_length_eq_zero (by omega)
    simp [runIter, h0]
  | succ n ih =>
    intro s hg hf
    cases hnext : s.next with
    | none =>
      have h0 := (next_spec s hg).1 hnext
      rw [runIter, hnext, h0]
    | some p =>
      obtain ⟨j, s2⟩ := p
      obtain ⟨hj, hcap2, hg2, hden⟩ := (next_spec s hg).2 j s2 hnext
      rw [runIter, hnext]
      show j :: runIter n s2 = stateDen s
      rw [hden, ih s2 hg2 (by rw [hden] at hf; simp at hf; omega)]

theorem goodState_new {cap : Nat} (h : 1 ≤ cap) :
    GoodState (BiTreeIndexIter.new cap) := by
  constructor
  · intro n hn
    have h0 : n = 0 := by
      simp only [BiTreeIndexIter.new] at hn
      exact (Option.some.inj hn).symm
    subst h0
    simp only [BiTreeIndexIter.new]
    omega
  · intro n hn
    simp [BiTreeIndexIter.new] at hn

theorem stateDen_new (cap : Nat) :
    stateDen (BiTreeIndexIter.new cap) = inorderIdx cap 0 := by
  simp [stateDen, BiTreeIndexIter.new, curDen, stackDen]

theorem runIter_new {cap : Nat} (h : 1 ≤ cap) {fuel : Nat} (hf : cap ≤ fuel) :
    runIter fuel (BiTreeIndexIter.new cap) = inorderIdx cap 0 := by
  rw [runIter_eq_stateDen fuel _ (goodState_new h)
    (by rw [stateDen_new, length_inorderIdx]; omega), stateDen_new]

/-! ### The search/insert walk -/

namespace BinaryTree

variable {K V : Type} [LinearOrder K]

theorem find_index_from_oob {mem : List (Option (K × V))} {key : K} {i : Nat}
    (h : mem[i]? = none) : find_index_from mem key i = i := by
  rw [find_index_from, h]

theorem find_index_from_empty {mem : List (Option (K × V))} {key : K} {i : Nat}
    (h : mem[i]? = some none) : find_index_from mem key i = i := by
  rw [find_index_from, h]

theorem find_index_from_found {mem : List (Option (K × V))} {key r_key : K} {v : V}
    {i : Nat} (h : mem[i]? = some (some (r_key, v))) (hk : r_key = key) :
    find_index_from mem key i = i := by
  rw [find_index_from, h]
  dsimp only
  rw [if_pos hk]

theorem find_index_from_step_left {mem : List (Option (K × V))} {key r_key : K} {v : V}
    {i : Nat} (h : mem[i]? = some (some (r_key, v))) (hk : ¬ r_key = key)
    (hlt : key < r_key) :
    find_index_from mem key i = find_index_from mem key (BiTree.left i) := by
  rw [find_index_from, h]
  dsimp only
  rw [if_neg hk, if_pos hlt]

theorem find_index_from_step_right {mem : List (Option (K × V))} {key r_key : K} {v : V}
    {i : Nat} (h : mem[i]? = some (some (r_key, v))) (hk : ¬ r_key = key)
    (hlt : ¬ key < r_key) :
    find_index_from mem key i = find_index_from mem key (BiTree.right i) := by
  rw [find_index_from, h]
  dsimp only
  rw [if_neg hk, if_neg hlt]

/-- The walk's exit slot lies below its start in the implicit tree. -/
theorem mem_ancChain_find (mem : List (Option (K × V))) (key : K) (i : Nat) :
    i ∈ ancChain (find_index_from mem key i) := by
  cases h : mem[i]? with
  | none => rw [find_index_from_oob h]; exact self_mem_ancChain i
  | some cell =>
    cases cell with
    | none => rw [find_index_from_empty h]; exact self_mem_ancChain i
    | some kv =>
      obtain ⟨r_key, v⟩ := kv
      by_cases hk : r_key = key
      · rw [find_index_from_found h hk]; exact self_mem_ancChain i
      · by_cases hlt : key < r_key
        · rw [find_index_from_step_left h hk hlt]
          exact mem_ancChain_trans
            (by rw [ancChain_left]; exact List.mem_cons_of_mem _ (self_mem_ancChain i))
            (mem_ancChain_find mem key (BiTree.left i))
        · rw [find_index_from_step_right h hk hlt]
          exact mem_ancChain_trans
            (by rw [ancChain_right]; exact List.mem_cons_of_mem _ (self_mem_ancChain i))
            (mem_ancChain_find mem key (BiTree.right i))
termination_by mem.length - i
decreasing_by
  all_goals
    have hlen : i < mem.length := by
      by_contra hc
      rw [List.getElem?_eq_none (by omega)] at h
      cases h
  · simp only [BiTree.left]; omega
  · simp only [BiTree.right]; omega

/-- The walk exits out of bounds, at an empty slot, or at a slot that
holds the searched key. -/
theorem find_index_from_exit (mem : List (Option (K × V))) (key : K) (i : Nat) :
    mem[find_index_from mem key i]? = none ∨
    mem[find_index_from mem key i]? = some none ∨
    (∃ v, mem[find_index_from mem key i]? = some (some (key, v))) := by
  cases h : mem[i]? with
  | none => rw [find_index_from_oob h]; exact Or.inl h
  | some cell =>
    cases cell with
    | none => rw [find_index_from_empty h]; exact Or.inr (Or.inl h)
    | some kv =>
      obtain ⟨r_key, v⟩ := kv
      by_cases hk : r_key = key
      · rw [find_index_from_found h hk]
        exact Or.inr (Or.inr ⟨v, by rw [h, hk]⟩)
      · by_cases hlt : key < r_key
        · rw [find_index_from_step_left h hk hlt]
          exact find_index_from_exit mem key (BiTree.left i)
        · rw [find_index_from_step_right h hk hlt]
          exact find_index_from_exit mem key (BiTree.right i)
termination_by mem.length - i
decreasing_by
  all_goals
    have hlen : i < mem.length := by
      by_contra hc
      rw [List.getElem?_eq_none (by omega)] at h
      cases h
  · simp only [BiTree.left]; omega
  · simp only [BiTree.right]; omega

/-- Every strict ancestor of the walk's exit slot that lies on the walked
path is occupied, and its key compares against the searched key in the
direction the walk took. -/
theorem find_index_from_path (mem : List (Option (K × V))) (key : K) (i : Nat) :
    ∀ a, a ∈ ancChain (find_index_from mem key i) → i ∈ ancChain a →
      a ≠ find_index_from mem key i →
      ∃ ka va, mem[a]? = some (some (ka, va)) ∧
        (BiTree.left a ∈ ancChain (find_index_from mem key i) → key < ka) ∧
        (BiTree.right a ∈ ancChain (find_index_from mem key i) → ka < key) := by
  cases h : mem[i]? with
  | none =>
    rw [find_index_from_oob h]
    intro a ha hia hne
    exact absurd (eq_of_mem_ancChain_symm ha hia) hne
  | some cell =>
    cases cell with
    | none =>
      rw [find_index_from_empty h]
      intro a ha hia hne
      exact absurd (eq_of_mem_ancChain_symm ha hia) hne
    | some kv =>
      obtain ⟨r_key, v⟩ := kv
      by_cases hk : r_key = key
      · rw [find_index_from_found h hk]
        intro a ha hia hne
        exact absurd (eq_of_mem_ancChain_symm ha hia) hne
      · by_cases hlt : key < r_key
        · rw [find_index_from_step_left h hk hlt]
          intro a ha hia hne
          have hchild : BiTree.left i ∈
              ancChain (find_index_from mem key (BiTree.left i)) :=
            mem_ancChain_find mem key (BiTree.left i)
          by_cases hai : a = i
          · subst hai
            refine ⟨r_key, v, h, fun _ => hlt, fun hcon => ?_⟩
            exact absurd ⟨hchild, hcon⟩ not_both_children_mem
          · have hstep : BiTree.left i ∈ ancChain a := by
              rcases child_mem_of_mem hia (fun hc => hai hc.symm) with hc | hc
              · exact hc
              · exfalso
                have : BiTree.right i ∈
                    ancChain (find_index_from mem key (BiTree.left i)) :=
                  mem_ancChain_trans hc ha
                exact not_both_children_mem ⟨hchild, this⟩
            exact find_index_from_path mem key (BiTree.left i) a ha hstep hne
        · rw [find_index_from_step_right h hk hlt]
          intro a ha hia hne
          have hchild : BiTree.right i ∈
              ancChain (find_index_from mem key (BiTree.right i)) :=
            mem_ancChain_find mem key (BiTree.right i)
          by_cases hai : a = i
          · subst hai
            refine ⟨r_key, v, h, fun hcon => ?_, fun _ => lt_of_le_of_ne (not_lt.mp hlt) hk⟩
            exact absurd ⟨hcon, hchild⟩ not_both_children_mem
          · have hstep : BiTree.right i ∈ ancChain a := by
              rcases child_mem_of_mem hia (fun hc => hai hc.symm) with hc | hc
              · exfalso
                have : BiTree.left i ∈
                    ancChain (find_index_from mem key (BiTree.right i)) :=
                  mem_ancChain_trans hc ha
                exact not_both_children_mem ⟨this, hchild⟩
              · exact hc
            exact find_index_from_path mem key (BiTree.right i) a ha hstep hne
termination_by mem.length - i
decreasing_by
  all_goals
    have hlen : i < mem.length := by
      by_contra hc
      rw [List.getElem?_eq_none (by omega)] at h
      cases h
  · simp only [BiTree.left]; omega
  · simp only [BiTree.right]; omega

/-! ### The binary-search-tree invariant of the backing array -/

/-- Slot `j` holds exactly the pair `kv`. -/
def Occ (mem : List (Option (K × V))) (j : Nat) (kv : K × V) : Prop :=
  mem[j]? = some (some kv)

/-- The invariant maintained by `insert` and `grow`: every occupied
slot's ancestors are occupied, and keys respect the left/right subtree
ordering of the implicit tree. -/
def TreeInv (mem : List (Option (K × V))) : Prop :=
  (∀ j kv, Occ mem j kv → ∀ a ∈ ancChain j, ∃ kv2, Occ mem a kv2) ∧
  (∀ j kvj a kva, Occ mem j kvj → Occ mem a kva →
    (BiTree.left a ∈ ancChain j → kvj.1 < kva.1) ∧
    (BiTree.right a ∈ ancChain j → kva.1 < kvj.1))

theorem occ_lt_length {mem : List (Option (K × V))} {j : Nat} {kv : K × V}
    (h : Occ mem j kv) : j < mem.length := by
  rcases List.getElem?_eq_some.mp h with ⟨hlt, _⟩
  exact hlt

/-- A fully empty array satisfies the invariant. -/
theorem treeInv_replicate (n : Nat) :
    TreeInv (List.replicate n (none : Option (K × V))) := by
  have hno : ∀ j kv, ¬ Occ (List.replicate n (none : Option (K × V))) j kv := by
    intro j kv hocc
    rw [Occ, List.getElem?_replicate] at hocc
    split at hocc
    · cases hocc
    · cases hocc
  constructor
  · intro j kv hocc
    exact absurd hocc (hno j kv)
  · intro j kvj a kva hocc
    exact absurd hocc (hno j kvj)

/-! ### Growth: slotwise behaviour -/

theorem grow_getElem (t : BinaryTree K V) (j : Nat) :
    (t.grow).mem[j]? =
      if j < t.capacity then t.mem[j]?
      else if j < t.capacity * 2 then some none
      else none := by
  show ((t.mem ++ List.replicate (t.capacity * 2) none).take (t.capacity * 2))[j]? = _
  rw [List.getElem?_take, List.getElem?_append]
  simp only [capacity, List.getElem?_replicate]
  by_cases h1 : j < t.mem.length
  · rw [if_pos h1, if_pos (by omega), if_pos h1]
  · rw [if_neg h1, if_neg h1]
    by_cases h2 : j < t.mem.length * 2
    · rw [if_pos h2, if_pos h2, if_pos (by omega)]
    · rw [if_neg h2, if_neg h2]

theorem grow_capacity (t : BinaryTree K V) : (t.grow).capacity = t.capacity * 2 := by
  show ((t.mem ++ List.replicate (t.capacity * 2) none).take (t.capacity * 2)).length = _
  rw [List.length_take, List.length_append, List.length_replicate]
  simp only [capacity]
  omega

theorem occ_grow {t : BinaryTree K V} {j : Nat} {kv : K × V} :
    Occ (t.grow).mem j kv ↔ Occ t.mem j kv := by
  rw [Occ, Occ, grow_getElem]
  constructor
  · intro h
    split at h
    · exact h
    · split at h
      · cases h
      · cases h
  · intro h
    rw [if_pos (show j < t.capacity from occ_lt_length h)]
    exact h

theorem treeInv_grow {t : BinaryTree K V} (hinv : TreeInv t.mem) :
    TreeInv (t.grow).mem := by
  constructor
  · intro j kv hocc a ha
    obtain ⟨kv2, h2⟩ := hinv.1 j kv (occ_grow.mp hocc) a ha
    exact ⟨kv2, occ_grow.mpr h2⟩
  · intro j kvj a kva hj ha
    exact hinv.2 j kvj a kva (occ_grow.mp hj) (occ_grow.mp ha)

/-- Growing never changes where the walk for a key exits. -/
theorem find_index_from_grow (t : BinaryTree K V) (key : K) (i : Nat) :
    find_index_from (t.grow).mem key i = find_index_from t.mem key i := by
  cases h : t.mem[i]? with
  | none =>
    rw [find_index_from_oob h]
    have hg := grow_getElem t i
    rw [if_neg (by simp only [capacity]; intro hc; rw [List.getElem?_eq_getElem hc] at h; cases h)] at hg
    split at hg
    · exact find_index_from_empty hg
    · exact find_index_from_oob hg
  | some cell =>
    have hlen : i < t.mem.length := by
      rcases List.getElem?_eq_some.mp h with ⟨hlt, _⟩
      exact hlt
    have hg : (t.grow).mem[i]? = t.mem[i]? := by
      rw [grow_getElem, if_pos (show i < t.capacity from hlen)]
    cases cell with
    | none => rw [find_index_from_empty h, find_index_from_empty (hg.trans h)]
    | some kv =>
      obtain ⟨r_key, v⟩ := kv
      by_cases hk : r_key = key
      · rw [find_index_from_found h hk, find_index_from_found (hg.trans h) hk]
      · by_cases hlt : key < r_key
        · rw [find_index_from_step_left h hk hlt,
            find_index_from_step_left (hg.trans h) hk hlt]
          exact find_index_from_grow t key (BiTree.left i)
        · rw [find_index_from_step_right h hk hlt,
            find_index_from_step_right (hg.trans h) hk hlt]
          exact find_index_from_grow t key (BiTree.right i)
termination_by t.mem.length - i
decreasing_by
  all_goals simp only [BiTree.left, BiTree.right]; omega

theorem find_index_grow (t : BinaryTree K V) (key : K) :
    (t.grow).find_index key = t.find_index key :=
  find_index_from_grow t key 0

/-! ### The walk under the invariant -/

/-- Under the invariant, the walk for the key of an occupied slot,
started anywhere on that slot's ancestor chain, exits at that slot. -/
theorem find_index_from_of_occ {mem : List (Option (K × V))} (hinv : TreeInv mem)
    {j : Nat} {k : K} {v : V} (hocc : Occ mem j (k, v)) (a : Nat)
    (ha : a ∈ ancChain j) : find_index_from mem k a = j := by
  by_cases haj : a = j
  · subst haj
    exact find_index_from_found hocc rfl
  · obtain ⟨⟨ka, va⟩, hocca⟩ := hinv.1 j (k, v) hocc a ha
    rcases child_mem_of_mem ha haj with hc | hc
    · have hlt : k < ka := (hinv.2 j (k, v) a (ka, va) hocc hocca).1 hc
      rw [find_index_from_step_left hocca (ne_of_gt hlt) hlt]
      exact find_index_from_of_occ hinv hocc (BiTree.left a) hc
    · have hgt : ka < k := (hinv.2 j (k, v) a (ka, va) hocc hocca).2 hc
      rw [find_index_from_step_right hocca (ne_of_lt hgt) (not_lt.mpr hgt.le)]
      exact find_index_from_of_occ hinv hocc (BiTree.right a) hc
termination_by j - a
decreasing_by
  · have h1 := le_of_mem_ancChain hc
    simp only [BiTree.left] at h1 ⊢
    omega
  · have h1 := le_of_mem_ancChain hc
    simp only [BiTree.right] at h1 ⊢
    omega

/-- `get` rewritten through `Option.bind`. -/
theorem get_eq (t : BinaryTree K V) (k : K) :
    t.get k = (t.mem[t.find_index k]?).bind (fun cell => cell.map Prod.snd) := by
  rw [get]
  cases t.mem[t.find_index k]? <;> rfl

/-- A successful `get` means the walk's exit slot holds the key. -/
theorem get_eq_some_slot {t : BinaryTree K V} {k : K} {v : V}
    (h : t.get k = some v) : t.mem[t.find_index k]? = some (some (k, v)) := by
  rw [get_eq] at h
  rcases find_index_from_exit t.mem k 0 with he | he | ⟨v2, he⟩
  · rw [show t.find_index k = find_index_from t.mem k 0 from rfl, he] at h
    cases h
  · rw [show t.find_index k = find_index_from t.mem k 0 from rfl, he] at h
    cases h
  · rw [show t.find_index k = find_index_from t.mem k 0 from rfl] at h ⊢
    rw [he] at h
    cases h
    exact he

/-- Under the invariant, `get` finds exactly the stored pairs. -/
theorem get_eq_some_iff {t : BinaryTree K V} (hinv : TreeInv t.mem) (k : K) (v : V) :
    t.get k = some v ↔ ∃ j, Occ t.mem j (k, v) := by
  constructor
  · intro hget
    exact ⟨t.find_index k, get_eq_some_slot hget⟩
  · rintro ⟨j, hocc⟩
    have hfind : t.find_index k = j :=
      find_index_from_of_occ hinv hocc 0 (zero_mem_ancChain j)
    rw [get_eq, hfind, hocc]
    rfl

/-! ### Writing a slot preserves the invariant -/

theorem occ_set_iff {mem : List (Option (K × V))} {j : Nat} (hj : j < mem.length)
    (x : Option (K × V)) (i2 : Nat) (kv : K × V) :
    Occ (mem.set j x) i2 kv ↔ (i2 = j ∧ x = some kv) ∨ (i2 ≠ j ∧ Occ mem i2 kv) := by
  by_cases hij : i2 = j
  · subst hij
    rw [Occ, List.getElem?_set_self hj]
    constructor
    · intro h
      exact Or.inl ⟨rfl, Option.some.inj h⟩
    · rintro (⟨-, rfl⟩ | ⟨hne, -⟩)
      · rfl
      · exact absurd rfl hne
  · rw [Occ, List.getElem?_set_ne (Ne.symm hij)]
    constructor
    · intro h
      exact Or.inr ⟨hij, h⟩
    · rintro (⟨h1, -⟩ | ⟨-, h⟩)
      · exact absurd h1 hij
      · exact h

/-- Overwriting an occupied slot with a pair carrying the same key
preserves the invariant. -/
theorem treeInv_set_samekey {mem : List (Option (K × V))} (hinv : TreeInv mem) {j : Nat}
    {k : K} {v_old v : V} (hocc : mem[j]? = some (some (k, v_old))) :
    TreeInv (mem.set j (some (k, v))) := by
  have hj : j < mem.length := occ_lt_length hocc
  have fwd : ∀ i2 kv2, Occ (mem.set j (some (k, v))) i2 kv2 →
      ∃ v2, Occ mem i2 (kv2.1, v2) := by
    intro i2 kv2 h2
    rcases (occ_set_iff hj _ i2 kv2).mp h2 with ⟨rfl, hkv⟩ | ⟨-, h3⟩
    · have hkv2 : kv2 = (k, v) := Option.some.inj hkv.symm
      subst hkv2
      exact ⟨v_old, hocc⟩
    · exact ⟨kv2.2, h3⟩
  have bwd : ∀ i2 kv2, Occ mem i2 kv2 →
      ∃ kv3, Occ (mem.set j (some (k, v))) i2 kv3 := by
    intro i2 kv2 h2
    by_cases hij : i2 = j
    · exact ⟨(k, v), (occ_set_iff hj _ i2 (k, v)).mpr (Or.inl ⟨hij, rfl⟩)⟩
    · exact ⟨kv2, (occ_set_iff hj _ i2 kv2).mpr (Or.inr ⟨hij, h2⟩)⟩
  constructor
  · intro j2 kv hocc2 a ha
    obtain ⟨v2, h2⟩ := fwd j2 kv hocc2
    obtain ⟨kv3, h3⟩ := hinv.1 j2 (kv.1, v2) h2 a ha
    exact bwd a kv3 h3
  · intro j2 kvj a kva h2 h3
    obtain ⟨vj, hj2⟩ := fwd j2 kvj h2
    obtain ⟨va, ha2⟩ := fwd a kva h3
    exact hinv.2 j2 (kvj.1, vj) a (kva.1, va) hj2 ha2

/-- Writing a fresh pair into the empty slot where its key's walk exits
preserves the invariant. -/
theorem treeInv_set_fresh {mem : List (Option (K × V))} (hinv : TreeInv mem) {k : K} {v : V}
    (hempty : mem[find_index_from mem k 0]? = some none) :
    TreeInv (mem.set (find_index_from mem k 0) (some (k, v))) := by
  have hlen : (find_index_from mem k 0) < mem.length := (List.getElem?_eq_some.mp hempty).1
  have hnoe : ∀ kv : K × V, ¬ Occ mem (find_index_from mem k 0) kv := by
    intro kv hocc
    rw [Occ, hempty] at hocc
    cases Option.some.inj hocc
  constructor
  · intro j2 kv hocc2 a ha
    rcases (occ_set_iff hlen _ j2 kv).mp hocc2 with ⟨rfl, -⟩ | ⟨hne, h3⟩
    · by_cases hae : a = find_index_from mem k 0
      · exact ⟨(k, v), (occ_set_iff hlen _ a (k, v)).mpr (Or.inl ⟨hae, rfl⟩)⟩
      · obtain ⟨ka, va, hocca, -, -⟩ :=
          find_index_from_path mem k 0 a ha (zero_mem_ancChain a) hae
        exact ⟨(ka, va), (occ_set_iff hlen _ a (ka, va)).mpr (Or.inr ⟨hae, hocca⟩)⟩
    · obtain ⟨kv2, h4⟩ := hinv.1 j2 kv h3 a ha
      by_cases hae : a = find_index_from mem k 0
      · exact absurd (hae ▸ h4) (hnoe kv2)
      · exact ⟨kv2, (occ_set_iff hlen _ a kv2).mpr (Or.inr ⟨hae, h4⟩)⟩
  · intro j2 kvj a kva h2 h3
    rcases (occ_set_iff hlen _ j2 kvj).mp h2 with ⟨rfl, hkvj⟩ | ⟨hne2, h4⟩
    · have hkvj2 : kvj = (k, v) := Option.some.inj hkvj.symm
      rcases (occ_set_iff hlen _ a kva).mp h3 with ⟨rfl, -⟩ | ⟨hnea, h5⟩
      · constructor
        · intro hcon
          have := le_of_mem_ancChain hcon
          simp only [BiTree.left] at this
          omega
        · intro hcon
          have := le_of_mem_ancChain hcon
          simp only [BiTree.right] at this
          omega
      · constructor
        · intro hcon
          obtain ⟨ka, va, hocca, hL, -⟩ :=
            find_index_from_path mem k 0 a (mem_ancChain_of_left_mem hcon)
              (zero_mem_ancChain a) hnea
          have hkva : kva = (ka, va) := by
            rw [Occ, hocca] at h5
            exact (Option.some.inj (Option.some.inj h5)).symm
          rw [hkvj2, hkva]
          exact hL hcon
        · intro hcon
          obtain ⟨ka, va, hocca, -, hR⟩ :=
            find_index_from_path mem k 0 a (mem_ancChain_of_right_mem hcon)
              (zero_mem_ancChain a) hnea
          have hkva : kva = (ka, va) := by
            rw [Occ, hocca] at h5
            exact (Option.some.inj (Option.some.inj h5)).symm
          rw [hkvj2, hkva]
          exact hR hcon
    · rcases (occ_set_iff hlen _ a kva).mp h3 with ⟨rfl, -⟩ | ⟨hnea, h5⟩
      · constructor
        · intro hcon
          obtain ⟨kv2, h6⟩ :=
            hinv.1 j2 kvj h4 _ (mem_ancChain_of_left_mem hcon)
          exact absurd h6 (hnoe kv2)
        · intro hcon
          obtain ⟨kv2, h6⟩ :=
            hinv.1 j2 kvj h4 _ (mem_ancChain_of_right_mem hcon)
          exact absurd h6 (hnoe kv2)
      · exact hinv.2 j2 kvj a kva h4 h5

/-! ### `insert`: unfolding, termination of the grow-and-retry loop -/

theorem insertAux_succ_some {t : BinaryTree K V} {k : K} {v : V} {fuel : Nat}
    {cell : Option (K × V)} (h : t.mem[t.find_index k]? = some cell) :
    insertAux (fuel + 1) t k v =
      some (⟨t.mem.set (t.find_index k) (some (k, v))⟩, cell.map Prod.snd) := by
  rw [insertAux]
  rw [h]

theorem insertAux_succ_none {t : BinaryTree K V} {k : K} {v : V} {fuel : Nat}
    (h : t.mem[t.find_index k]? = none) :
    insertAux (fuel + 1) t k v = insertAux fuel t.grow k v := by
  rw [insertAux]
  rw [h]

/-- With a retry budget of `f + 1`, inserting succeeds whenever the
target index is below `capacity * 2 ^ f`: each retry doubles the
capacity while the target index stays put. -/
theorem insertAux_isSome : ∀ (f : Nat) (t : BinaryTree K V) (k : K) (v : V),
    1 ≤ t.capacity → t.find_index k < t.capacity * 2 ^ f →
    (insertAux (f + 1) t k v).isSome := by
  intro f
  induction f with
  | zero =>
    intro t k v hcap hf
    have hlen : t.find_index k < t.mem.length := by
      simpa [capacity] using hf
    rw [insertAux_succ_some (List.getElem?_eq_getElem hlen)]
    rfl
  | succ n ih =>
    intro t k v hcap hf
    cases hcell : t.mem[t.find_index k]? with
    | some cell =>
      rw [insertAux_succ_some hcell]
      rfl
    | none =>
      rw [insertAux_succ_none hcell]
      refine ih t.grow k v ?_ ?_
      · rw [grow_capacity]; omega
      · rw [grow_capacity, find_index_grow]
        have h2 : t.capacity * 2 ^ (n + 1) = t.capacity * 2 * 2 ^ n := by ring
        rw [h2] at hf
        exact hf

/-- The budget `insert` allots (`find_index + 1`) always suffices for a
tree of positive capacity, so `insert` is the successful `insertAux`. -/
theorem insertAux_insert {t : BinaryTree K V} {k : K} {v : V} (hcap : 1 ≤ t.capacity) :
    insertAux (t.find_index k + 1) t k v = some (insert t k v) := by
  have hs := insertAux_isSome (t.find_index k) t k v hcap (by
    calc t.find_index k < 2 ^ t.find_index k := Nat.lt_two_pow _
    _ ≤ t.capacity * 2 ^ t.find_index k := Nat.le_mul_of_pos_left _ hcap)
  rw [insert]
  cases ho : insertAux (t.find_index k + 1) t k v with
  | none => rw [ho] at hs; cases hs
  | some p => rfl

/-- Unfolding `insert` when the target slot exists: overwrite it and
return the previous value. -/
theorem insert_of_some {t : BinaryTree K V} {k : K} {v : V} {cell : Option (K × V)}
    (h : t.mem[t.find_index k]? = some cell) :
    insert t k v = (⟨t.mem.set (t.find_index k) (some (k, v))⟩, cell.map Prod.snd) := by
  rw [insert, insertAux_succ_some h]
  rfl

/-- Everything `insert`'s recursion guarantees, for any retry budget
that succeeds: the invariant is preserved, capacity never shrinks, the
new pair is stored, and pairs with other keys survive untouched. -/
theorem insertAux_spec : ∀ (fuel : Nat) (t : BinaryTree K V) (k : K) (v : V)
    (t2 : BinaryTree K V) (r : Option V),
    insertAux fuel t k v = some (t2, r) → TreeInv t.mem →
    TreeInv t2.mem ∧ t.capacity ≤ t2.capacity ∧
    (∃ j, Occ t2.mem j (k, v)) ∧
    (∀ j kv, Occ t.mem j kv → kv.1 ≠ k → ∃ j2, Occ t2.mem j2 kv) := by
  intro fuel
  induction fuel with
  | zero =>
    intro t k v t2 r h hinv
    simp [insertAux] at h
  | succ n ih =>
    intro t k v t2 r h hinv
    have hfe : t.find_index k = find_index_from t.mem k 0 := rfl
    cases hcell : t.mem[t.find_index k]? with
    | some cell =>
      rw [insertAux_succ_some hcell] at h
      cases h
      have hlen : t.find_index k < t.mem.length := (List.getElem?_eq_some.mp hcell).1
      rcases find_index_from_exit t.mem k 0 with he | he | ⟨v2, he⟩
      · rw [hfe, he] at hcell
        cases hcell
      · -- fresh insertion into the empty exit slot
        have hempty : t.mem[t.find_index k]? = some none := by rw [hfe]; exact he
        refine ⟨?_, ?_, ?_, ?_⟩
        · show TreeInv (t.mem.set (t.find_index k) (some (k, v)))
          rw [hfe]
          rw [hfe] at hempty
          exact treeInv_set_fresh hinv hempty
        · show t.capacity ≤ (t.mem.set (t.find_index k) (some (k, v))).length
          rw [List.length_set]
          exact Nat.le_refl _
        · refine ⟨t.find_index k, ?_⟩
          rw [Occ, List.getElem?_set_self hlen]
        · intro j kv hocc hkey
          have hje : j ≠ t.find_index k := by
            intro hc
            rw [← hc] at hempty
            rw [Occ, hempty] at hocc
            cases Option.some.inj hocc
          exact ⟨j, (occ_set_iff hlen _ j kv).mpr (Or.inr ⟨hje, hocc⟩)⟩
      · -- the key is present: update in place
        have hocc : t.mem[t.find_index k]? = some (some (k, v2)) := by rw [hfe]; exact he
        refine ⟨?_, ?_, ?_, ?_⟩
        · exact treeInv_set_samekey hinv hocc
        · show t.capacity ≤ (t.mem.set (t.find_index k) (some (k, v))).length
          rw [List.length_set]
          exact Nat.le_refl _
        · refine ⟨t.find_index k, ?_⟩
          rw [Occ, List.getElem?_set_self hlen]
        · intro j kv hoccj hkey
          have hje : j ≠ t.find_index k := by
            intro hc
            rw [← hc] at hocc
            rw [Occ, hocc] at hoccj
            have := Option.some.inj (Option.some.inj hoccj)
            apply hkey
            rw [← this]
          exact ⟨j, (occ_set_iff hlen _ j kv).mpr (Or.inr ⟨hje, hoccj⟩)⟩
    | none =>
      rw [insertAux_succ_none hcell] at h
      obtain ⟨h1, h2, h3, h4⟩ := ih t.grow k v t2 r h (treeInv_grow hinv)
      refine ⟨h1, ?_, h3, ?_⟩
      · calc t.capacity ≤ t.grow.capacity := by rw [grow_capacity]; omega
        _ ≤ t2.capacity := h2
      · intro j kv hocc hkey
        exact h4 j kv (occ_grow.mpr hocc) hkey

/-! ### In-order traversal meets the invariant: keys come out sorted -/

/-- Under the invariant, along the in-order index sequence any two
occupied slots carry strictly increasing keys. -/
theorem pairwise_inorderIdx {mem : List (Option (K × V))} (hinv : TreeInv mem) (i : Nat) :
    List.Pairwise
      (fun a b => ∀ kva kvb, Occ mem a kva → Occ mem b kvb → kva.1 < kvb.1)
      (inorderIdx mem.length i) := by
  by_cases hcap : i < mem.length
  · rw [inorderIdx_pos hcap, List.pairwise_append]
    refine ⟨pairwise_inorderIdx hinv (BiTree.left i), ?_, ?_⟩
    · rw [List.pairwise_cons]
      refine ⟨?_, pairwise_inorderIdx hinv (BiTree.right i)⟩
      intro b hb kvi kvb hocci hoccb
      have hrb : BiTree.right i ∈ ancChain b := ((mem_inorderIdx _ _ _).mp hb).2
      exact (hinv.2 b kvb i kvi hoccb hocci).2 hrb
    · intro a ha b hb kva kvb hocca hoccb
      have hla : BiTree.left i ∈ ancChain a := ((mem_inorderIdx _ _ _).mp ha).2
      rcases List.mem_cons.mp hb with rfl | hb2
      · exact (hinv.2 a kva b kvb hocca hoccb).1 hla
      · have hrb : BiTree.right i ∈ ancChain b := ((mem_inorderIdx _ _ _).mp hb2).2
        have hia : i ∈ ancChain a := mem_ancChain_of_left_mem hla
        obtain ⟨kvi, hocci⟩ := hinv.1 a kva hocca i hia
        have h1 : kva.1 < kvi.1 := (hinv.2 a kva i kvi hocca hocci).1 hla
        have h2 : kvi.1 < kvb.1 := (hinv.2 b kvb i kvi hoccb hocci).2 hrb
        exact lt_trans h1 h2
  · rw [inorderIdx_neg hcap]
    exact List.Pairwise.nil
termination_by mem.length - i
decreasing_by
  · simp only [BiTree.left]; omega
  · simp only [BiTree.right]; omega

/-! ### The consuming iterator over an explicit index list -/

/-- `consumeAux` driven by a pure list of indices instead of the
generator: visit each index, take out an occupied slot's pair. -/
def consumeIdx : List Nat → List (Option (K × V)) → List (K × V) × List (Option (K × V))
  | [], mem => ([], mem)
  | i :: rest, mem =>
    match mem[i]? with
    | some (some res) =>
      let r := consumeIdx rest (mem.set i none)
      (res :: r.1, r.2)
    | _ => consumeIdx rest mem

theorem consumeAux_eq_consumeIdx : ∀ (fuel : Nat) (mem : List (Option (K × V)))
    (it : BiTreeIndexIter), consumeAux fuel mem it = consumeIdx (runIter fuel it) mem := by
  intro fuel
  induction fuel with
  | zero => intro mem it; rfl
  | succ n ih =>
    intro mem it
    cases hnext : it.next with
    | none => rw [consumeAux, runIter, hnext]; rfl
    | some p =>
      obtain ⟨i, it2⟩ := p
      rw [consumeAux, runIter, hnext]
      show (match mem[i]? with
        | some (some res) =>
          let r := consumeAux n (mem.set i none) it2
          (res :: r.1, r.2)
        | _ => consumeAux n mem it2) = consumeIdx (i :: runIter n it2) mem
      rw [consumeIdx]
      cases hcell : mem[i]? with
      | none => simp only [ih]
      | some cell =>
        cases cell with
        | none => simp only [ih]
        | some res => simp only [ih]

theorem consumeIdx_fst : ∀ (is2 : List Nat) (mem : List (Option (K × V))), is2.Nodup →
    (consumeIdx is2 mem).1 = is2.filterMap (fun i => (mem[i]?).bind id) := by
  intro is2
  induction is2 with
  | nil => intro mem h; rfl
  | cons i rest ih =>
    intro mem hnd
    rw [List.nodup_cons] at hnd
    rw [consumeIdx, List.filterMap_cons]
    cases hcell : mem[i]? with
    | none =>
      show (consumeIdx rest mem).1 = _
      rw [ih mem hnd.2]
      rfl
    | some cell =>
      cases cell with
      | none =>
        show (consumeIdx rest mem).1 = _
        rw [ih mem hnd.2]
        rfl
      | some res =>
        show res :: (consumeIdx rest (mem.set i none)).1 = _
        rw [ih (mem.set i none) hnd.2]
        congr 1
        apply List.filterMap_congr
        intro j hj
        rw [List.getElem?_set_ne]
        intro hc
        exact hnd.1 (hc ▸ hj)

theorem consumeIdx_snd_length : ∀ (is2 : List Nat) (mem : List (Option (K × V))),
    ((consumeIdx is2 mem).2).length = mem.length := by
  intro is2
  induction is2 with
  | nil => intro mem; rfl
  | cons i rest ih =>
    intro mem
    rw [consumeIdx]
    cases hcell : mem[i]? with
    | none => exact ih mem
    | some cell =>
      cases cell with
      | none => exact ih mem
      | some res =>
        show ((consumeIdx rest (mem.set i none)).2).length = _
        rw [ih (mem.set i none), List.length_set]

theorem consumeIdx_snd_not_mem : ∀ (is2 : List Nat) (mem : List (Option (K × V)))
    (j : Nat), j ∉ is2 → ((consumeIdx is2 mem).2)[j]? = mem[j]? := by
  intro is2
  induction is2 with
  | nil => intro mem j h; rfl
  | cons i rest ih =>
    intro mem j hj
    have hji : j ≠ i := fun hc => hj (hc ▸ List.mem_cons_self _ _)
    have hjr : j ∉ rest := fun hc => hj (List.mem_cons_of_mem _ hc)
    rw [consumeIdx]
    cases hcell : mem[i]? with
    | none => exact ih mem j hjr
    | some cell =>
      cases cell with
      | none => exact ih mem j hjr
      | some res =>
        show ((consumeIdx rest (mem.set i none)).2)[j]? = _
        rw [ih (mem.set i none) j hjr, List.getElem?_set_ne (Ne.symm hji)]

theorem consumeIdx_snd_mem : ∀ (is2 : List Nat) (mem : List (Option (K × V)))
    (j : Nat), j ∈ is2 → j < mem.length → ((consumeIdx is2 mem).2)[j]? = some none := by
  intro is2
  induction is2 with
  | nil => intro mem j h; cases h
  | cons i rest ih =>
    intro mem j hj hlen
    rw [consumeIdx]
    cases hcell : mem[i]? with
    | none =>
      rcases List.mem_cons.mp hj with rfl | hj2
      · rw [List.getElem?_eq_getElem hlen] at hcell
        cases hcell
      · exact ih mem j hj2 hlen
    | some cell =>
      cases cell with
      | none =>
        rcases List.mem_cons.mp hj with rfl | hj2
        · by_cases hjr : j ∈ rest
          · exact ih mem j hjr hlen
          · rw [consumeIdx_snd_not_mem rest mem j hjr]
            exact hcell
        · exact ih mem j hj2 hlen
      | some res =>
        show ((consumeIdx rest (mem.set i none)).2)[j]? = some none
        rcases List.mem_cons.mp hj with rfl | hj2
        · by_cases hjr : j ∈ rest
          · exact ih (mem.set j none) j hjr (by rw [List.length_set]; exact hlen)
          · rw [consumeIdx_snd_not_mem rest (mem.set j none) j hjr,
              List.getElem?_set_self hlen]
        · exact ih (mem.set i none) j hj2 (by rw [List.length_set]; exact hlen)

/-! ### Reachable trees -/

theorem with_capacity_mem (c : Nat) :
    (with_capacity c : BinaryTree K V).mem = List.replicate (Nat.max c 1) none := rfl

theorem with_capacity_capacity (c : Nat) :
    (with_capacity c : BinaryTree K V).capacity = Nat.max c 1 := by
  show (List.replicate (Nat.max c 1) (none : Option (K × V))).length = _
  rw [List.length_replicate]

/-- What one `insert` call guarantees on an invariant-satisfying tree of
positive capacity. -/
theorem insert_preserves {t : BinaryTree K V} (k : K) (v : V)
    (hinv : TreeInv t.mem) (hcap : 1 ≤ t.capacity) :
    TreeInv (t.insert k v).1.mem ∧ 1 ≤ (t.insert k v).1.capacity ∧
    (∃ j, Occ (t.insert k v).1.mem j (k, v)) ∧
    (∀ j kv2, Occ t.mem j kv2 → kv2.1 ≠ k → ∃ j2, Occ (t.insert k v).1.mem j2 kv2) := by
  obtain ⟨h1, h2, h3, h4⟩ := insertAux_spec (t.find_index k + 1) t k v
    (t.insert k v).1 (t.insert k v).2 (by rw [insertAux_insert hcap]) hinv
  exact ⟨h1, le_trans hcap h2, h3, h4⟩

theorem foldl_insert_inv : ∀ (ops : List (K × V)) (t : BinaryTree K V),
    TreeInv t.mem → 1 ≤ t.capacity →
    TreeInv (ops.foldl (fun t2 kv => (t2.insert kv.1 kv.2).1) t).mem ∧
    1 ≤ (ops.foldl (fun t2 kv => (t2.insert kv.1 kv.2).1) t).capacity := by
  intro ops
  induction ops with
  | nil => intro t h1 h2; exact ⟨h1, h2⟩
  | cons kv rest ih =>
    intro t h1 h2
    rw [List.foldl_cons]
    obtain ⟨g1, g2, -, -⟩ := insert_preserves kv.1 kv.2 h1 h2
    exact ih _ g1 g2

/-- Every tree built through the public API satisfies the invariant and
has positive capacity. -/
theorem buildTree_inv (c : Nat) (ops : List (K × V)) :
    TreeInv (buildTree c ops).mem ∧ 1 ≤ (buildTree c ops).capacity := by
  rw [buildTree]
  refine foldl_insert_inv ops (with_capacity c) ?_ ?_
  · rw [show (with_capacity c : BinaryTree K V).mem
      = List.replicate (Nat.max c 1) none from rfl]
    exact treeInv_replicate _
  · rw [with_capacity_capacity]
    exact Nat.le_max_right c 1

/-! ### Counting occupied slots -/

/-- The number of occupied slots of the backing array. -/
def occCount (mem : List (Option (K × V))) : Nat := (mem.filterMap id).length

theorem occCount_set_occupied : ∀ (mem : List (Option (K × V))) (j : Nat) (x z : K × V),
    mem[j]? = some (some x) → occCount (mem.set j (some z)) = occCount mem := by
  intro mem
  induction mem with
  | nil =>
    intro j x z h
    rw [List.getElem?_nil] at h
    cases h
  | cons head rest ih =>
    intro j x z h
    cases j with
    | zero =>
      rw [List.getElem?_cons_zero] at h
      have hh : head = some x := Option.some.inj h
      subst hh
      show occCount (some z :: rest) = occCount (some x :: rest)
      simp [occCount, List.filterMap_cons]
    | succ n =>
      have h2 : rest[n]? = some (some x) := by simpa using h
      have h3 := ih n x z h2
      show occCount (head :: rest.set n (some z)) = occCount (head :: rest)
      rw [occCount, occCount] at h3 ⊢
      cases head with
      | none => simpa [List.filterMap_cons] using h3
      | some a => simp [List.filterMap_cons, h3]

/-! ### Full traversal: indices, yielded pairs, final state -/

theorem toList_eq {t : BinaryTree K V} (hcap : 1 ≤ t.capacity) :
    toList t = (inorderIdx t.capacity 0).filterMap (fun i => (t.mem[i]?).bind id) := by
  rw [toList, drain, consumeAux_eq_consumeIdx, runIter_new hcap (by omega),
    consumeIdx_fst _ _ (nodup_inorderIdx _ _)]

theorem range_filterMap_bind : ∀ (mem : List (Option (K × V))),
    (List.range mem.length).filterMap (fun i => (mem[i]?).bind id) = mem.filterMap id := by
  intro mem
  induction mem with
  | nil => rfl
  | cons x xs ih =>
    rw [List.length_cons, List.range_succ_eq_map, List.filterMap_cons, List.filterMap_map]
    have hfun : ((fun i => ((x :: xs)[i]?).bind id) ∘ Nat.succ)
        = fun i => (xs[i]?).bind id := by
      funext i
      simp [Function.comp, List.getElem?_cons_succ]
    rw [hfun, ih]
    cases x with
    | none => simp [List.filterMap_cons, List.getElem?_cons_zero]
    | some a => simp [List.filterMap_cons, List.getElem?_cons_zero]

/-- The consuming traversal yields exactly the stored pairs, each once. -/
theorem toList_perm {t : BinaryTree K V} (hcap : 1 ≤ t.capacity) :
    (toList t).Perm (t.mem.filterMap id) := by
  rw [toList_eq hcap]
  refine ((inorderIdx_perm_range t.capacity).filterMap _).trans ?_
  rw [show List.range t.capacity = List.range t.mem.length from rfl,
    range_filterMap_bind]

/-- After full traversal every slot of the backing array is empty. -/
theorem drain_snd {t : BinaryTree K V} (hcap : 1 ≤ t.capacity) :
    (drain t).2 = List.replicate t.capacity none := by
  rw [drain, consumeAux_eq_consumeIdx, runIter_new hcap (by omega)]
  apply List.ext_getElem?
  intro n
  rw [List.getElem?_replicate]
  by_cases hn : n < t.capacity
  · rw [if_pos hn, consumeIdx_snd_mem _ _ n
      ((mem_inorderIdx _ 0 n).mpr ⟨hn, zero_mem_ancChain n⟩)
      (show n < t.mem.length from hn)]
  · rw [if_neg hn,
      consumeIdx_snd_not_mem _ _ n (fun hc => hn ((mem_inorderIdx _ _ _).mp hc).1)]
    have hn2 : ¬ n < t.mem.length := hn
    exact List.getElem?_eq_none (by omega)

/-- Keys come out of the consuming traversal strictly increasing. -/
theorem toList_sorted {t : BinaryTree K V} (hinv : TreeInv t.mem) (hcap : 1 ≤ t.capacity) :
    List.Pairwise (fun a b => a < b) ((toList t).map Prod.fst) := by
  rw [toList_eq hcap, List.pairwise_map, List.pairwise_filterMap]
  refine (pairwise_inorderIdx hinv 0).imp ?_
  intro a b hab x hx y hy
  rw [Option.mem_def] at hx hy
  rcases Option.bind_eq_some.mp hx with ⟨cx, hcx, hx2⟩
  rcases Option.bind_eq_some.mp hy with ⟨cy, hcy, hy2⟩
  exact hab x y (by rw [Occ, hcx]; exact congrArg some hx2)
    (by rw [Occ, hcy]; exact congrArg some hy2)

/-- Inserting keys different from `k` never disturbs a stored pair with
key `k`. -/
theorem foldl_insert_keeps : ∀ (ops : List (K × V)) (t : BinaryTree K V) (k : K) (v : V),
    TreeInv t.mem → 1 ≤ t.capacity → (∃ j, Occ t.mem j (k, v)) →
    k ∉ ops.map Prod.fst →
    ∃ j, Occ ((ops.foldl (fun t2 kv => (t2.insert kv.1 kv.2).1) t)).mem j (k, v) := by
  intro ops
  induction ops with
  | nil => intro t k v h1 h2 h3 h4; exact h3
  | cons kv rest ih =>
    intro t k v h1 h2 h3 h4
    rw [List.map_cons] at h4
    have hk1 : k ≠ kv.1 := fun hc => h4 (hc ▸ List.mem_cons_self _ _)
    have hk2 : k ∉ rest.map Prod.fst := fun hc => h4 (List.mem_cons_of_mem _ hc)
    rw [List.foldl_cons]
    obtain ⟨g1, g2, -, g4⟩ := insert_preserves kv.1 kv.2 h1 h2
    obtain ⟨j, hj⟩ := h3
    exact ih _ k v g1 g2 (g4 j (k, v) hj hk1) hk2

/-! ### The claims -/

/-- C1: for every initial capacity and every finite sequence of
`insert(key, value)` calls with keys from a totally ordered type, fully
consuming the tree's in-order iterator (`into_iter`) yields the stored
pairs with keys in strictly ascending order. -/
theorem claim_C1 (c : Nat) (ops : List (K × V)) :
    List.Sorted (fun a b => a < b)
      (((buildTree c ops : BinaryTree K V).toList).map Prod.fst) := by
  obtain ⟨hinv, hcap⟩ := buildTree_inv c ops
  exact toList_sorted hinv hcap

/-- C2: for every capacity `c ≥ 1`, every index emitted by the in-order
index generator `BiTreeIndexIter::new(c)` is strictly less than `c`, so
the consuming iterator's unchecked slot access stays within the bounds
of the backing array (whose length is the capacity). -/
theorem claim_C2 (c : Nat) (hc : 1 ≤ c) (fuel : Nat) :
    ∀ i ∈ runIter fuel (BiTreeIndexIter.new c), i < c := by
  intro i hi
  exact runIter_good_mem fuel (BiTreeIndexIter.new c) (goodState_new hc) i hi

theorem claim_C2_witness : (0 : Nat) < 2 :=
  claim_C2 2 (by norm_num) 3 0 (by
    rw [runIter_new (by norm_num) (by norm_num)]
    simp [inorderIdx, BiTree.left, BiTree.right])

/-- C3: if `(k, v)` is inserted and `k` is not inserted again afterwards,
`get k` returns `v` (before any traversal), growth included. -/
theorem claim_C3 (c : Nat) (pre post : List (K × V)) (k : K) (v : V)
    (hpost : k ∉ post.map Prod.fst) :
    (buildTree c (pre ++ (k, v) :: post) : BinaryTree K V).get k = some v := by
  have heq : (buildTree c (pre ++ (k, v) :: post) : BinaryTree K V) =
      post.foldl (fun t2 kv => (t2.insert kv.1 kv.2).1)
        ((buildTree c pre : BinaryTree K V).insert k v).1 := by
    simp only [buildTree, List.foldl_append, List.foldl_cons]
  obtain ⟨hinv0, hcap0⟩ := buildTree_inv c pre
  obtain ⟨hi1, hc1, hocc1, -⟩ := insert_preserves k v hinv0 hcap0
  obtain ⟨hinvF, hcapF⟩ := foldl_insert_inv post _ hi1 hc1
  rw [heq]
  exact (get_eq_some_iff hinvF k v).mpr
    (foldl_insert_keeps post _ k v hi1 hc1 hocc1 hpost)

theorem claim_C3_witness :
    (buildTree 2 ([] ++ (7, 42) :: [(4, 10)]) : BinaryTree Nat Nat).get 7 = some 42 :=
  claim_C3 2 [] [(4, 10)] 7 42 (by decide)

/-- C4: `insert` terminates successfully for every tree of positive
capacity: the retry budget it allots to the grow-and-retry recursion
suffices (`insertAux` returns `some`), and each growth strictly
increases the capacity; the out-of-bounds condition is never surfaced
to the caller. -/
theorem claim_C4 (t : BinaryTree K V) (k : K) (v : V) (hcap : 1 ≤ t.capacity) :
    insertAux (t.find_index k + 1) t k v = some (t.insert k v) ∧
    t.capacity < t.grow.capacity := by
  refine ⟨insertAux_insert hcap, ?_⟩
  rw [grow_capacity]
  omega

theorem claim_C4_witness :
    insertAux ((with_capacity 1 : BinaryTree Nat Nat).find_index 7 + 1)
        (with_capacity 1) 7 42 = some ((with_capacity 1 : BinaryTree Nat Nat).insert 7 42) ∧
    (with_capacity 1 : BinaryTree Nat Nat).capacity <
      (with_capacity 1 : BinaryTree Nat Nat).grow.capacity :=
  claim_C4 (with_capacity 1) 7 42 (by decide)

/-- C5: growth doubles the capacity, keeps every old slot's content at
the same index, and fills every newly added slot with an empty slot. -/
theorem claim_C5 (t : BinaryTree K V) (i j : Nat) (hi : i < t.capacity)
    (hj1 : t.capacity ≤ j) (hj2 : j < t.capacity * 2) :
    t.grow.capacity = t.capacity * 2 ∧
    t.grow.mem[i]? = t.mem[i]? ∧
    t.grow.mem[j]? = some none := by
  refine ⟨grow_capacity t, ?_, ?_⟩
  · rw [grow_getElem, if_pos hi]
  · rw [grow_getElem, if_neg (by omega), if_pos hj2]

theorem claim_C5_witness :
    (with_capacity 2 : BinaryTree Nat Nat).grow.capacity =
      (with_capacity 2 : BinaryTree Nat Nat).capacity * 2 ∧
    (with_capacity 2 : BinaryTree Nat Nat).grow.mem[0]? =
      (with_capacity 2 : BinaryTree Nat Nat).mem[0]? ∧
    (with_capacity 2 : BinaryTree Nat Nat).grow.mem[2]? = some none :=
  claim_C5 (with_capacity 2) 0 2 (by decide) (by decide) (by decide)

/-- C6: every tree reachable from a fresh construction by `insert` calls
satisfies the BST slot invariant: an occupied slot's occupied left child
holds a smaller key and its occupied right child a greater key. -/
theorem claim_C6 (c : Nat) (ops : List (K × V)) (i : Nat) (ki : K) (vi : V)
    (hocc : (buildTree c ops : BinaryTree K V).mem[i]? = some (some (ki, vi))) :
    (∀ kl vl, (buildTree c ops : BinaryTree K V).mem[BiTree.left i]? =
      some (some (kl, vl)) → kl < ki) ∧
    (∀ kr vr, (buildTree c ops : BinaryTree K V).mem[BiTree.right i]? =
      some (some (kr, vr)) → ki < kr) := by
  obtain ⟨hinv, -⟩ := buildTree_inv c ops
  constructor
  · intro kl vl hl
    exact (hinv.2 (BiTree.left i) (kl, vl) i (ki, vi) hl hocc).1 (self_mem_ancChain _)
  · intro kr vr hr
    exact (hinv.2 (BiTree.right i) (kr, vr) i (ki, vi) hr hocc).2 (self_mem_ancChain _)

theorem claim_C6_witness : (4 : Nat) < 7 := by
  have hf1 : (with_capacity 8 : BinaryTree Nat Nat).find_index 7 = 0 :=
    find_index_from_empty (by decide)
  have hc1 : (with_capacity 8 : BinaryTree Nat Nat).mem[(with_capacity 8 :
      BinaryTree Nat Nat).find_index 7]? = some none := by
    rw [hf1]; decide
  have e1 : ((with_capacity 8 : BinaryTree Nat Nat).insert 7 0).1.mem =
      [some (7, 0), none, none, none, none, none, none, none] := by
    rw [insert_of_some hc1]
    show (with_capacity 8 : BinaryTree Nat Nat).mem.set
      ((with_capacity 8 : BinaryTree Nat Nat).find_index 7) (some (7, 0)) = _
    rw [hf1]
    decide
  have hocc0 : ((with_capacity 8 : BinaryTree Nat Nat).insert 7 0).1.mem[0]? =
      some (some (7, 0)) := by rw [e1]; rfl
  have hstep : find_index_from ((with_capacity 8 : BinaryTree Nat Nat).insert 7 0).1.mem
      4 0 = 1 := by
    rw [find_index_from_step_left hocc0 (by decide) (by decide)]
    exact find_index_from_empty (by rw [e1]; rfl)
  have hf2 : ((with_capacity 8 : BinaryTree Nat Nat).insert 7 0).1.find_index 4 = 1 := hstep
  have hc2 : ((with_capacity 8 : BinaryTree Nat Nat).insert 7 0).1.mem[((with_capacity 8 :
      BinaryTree Nat Nat).insert 7 0).1.find_index 4]? = some none := by
    rw [hf2, e1]; rfl
  have e2 : (((with_capacity 8 : BinaryTree Nat Nat).insert 7 0).1.insert 4 1).1.mem =
      [some (7, 0), some (4, 1), none, none, none, none, none, none] := by
    rw [insert_of_some hc2]
    show ((with_capacity 8 : BinaryTree Nat Nat).insert 7 0).1.mem.set
      (((with_capacity 8 : BinaryTree Nat Nat).insert 7 0).1.find_index 4) (some (4, 1)) = _
    rw [hf2, e1]
    decide
  refine (claim_C6 8 [(7, 0), (4, 1)] 0 7 0 ?_).1 4 1 ?_
  · show (((with_capacity 8 : BinaryTree Nat Nat).insert 7 0).1.insert 4 1).1.mem[0]? =
      some (some (7, 0))
    rw [e2]
    rfl
  · show (((with_capacity 8 : BinaryTree Nat Nat).insert 7 0).1.insert 4 1).1.mem[BiTree.left 0]? =
      some (some (4, 1))
    rw [e2]
    rfl

/-- C7: inserting an already-present key returns the prior value, a
subsequent `get` returns the new value, and the number of occupied
slots does not increase. -/
theorem claim_C7 (c : Nat) (ops : List (K × V)) (k : K) (v_old v_new : V)
    (hold : (buildTree c ops : BinaryTree K V).get k = some v_old) :
    ((buildTree c ops : BinaryTree K V).insert k v_new).2 = some v_old ∧
    ((buildTree c ops : BinaryTree K V).insert k v_new).1.get k = some v_new ∧
    occCount ((buildTree c ops : BinaryTree K V).insert k v_new).1.mem ≤
      occCount (buildTree c ops : BinaryTree K V).mem := by
  obtain ⟨hinv, hcap⟩ := buildTree_inv c ops
  have hslot := get_eq_some_slot hold
  have hlen : (buildTree c ops : BinaryTree K V).find_index k <
      (buildTree c ops : BinaryTree K V).mem.length := (List.getElem?_eq_some.mp hslot).1
  rw [insert_of_some hslot]
  refine ⟨rfl, ?_, ?_⟩
  · refine (get_eq_some_iff (treeInv_set_samekey hinv hslot) k v_new).mpr
      ⟨(buildTree c ops : BinaryTree K V).find_index k, ?_⟩
    rw [Occ, List.getElem?_set_self hlen]
  · exact le_of_eq (occCount_set_occupied _ _ (k, v_old) (k, v_new) hslot)

theorem claim_C7_witness :
    ((buildTree 8 [(7, 0)] : BinaryTree Nat Nat).insert 7 1).2 = some 0 ∧
    ((buildTree 8 [(7, 0)] : BinaryTree Nat Nat).insert 7 1).1.get 7 = some 1 ∧
    occCount ((buildTree 8 [(7, 0)] : BinaryTree Nat Nat).insert 7 1).1.mem ≤
      occCount (buildTree 8 [(7, 0)] : BinaryTree Nat Nat).mem := by
  have hf1 : (with_capacity 8 : BinaryTree Nat Nat).find_index 7 = 0 :=
    find_index_from_empty (by decide)
  have hc1 : (with_capacity 8 : BinaryTree Nat Nat).mem[(with_capacity 8 :
      BinaryTree Nat Nat).find_index 7]? = some none := by
    rw [hf1]; decide
  have e1 : ((with_capacity 8 : BinaryTree Nat Nat).insert 7 0).1.mem =
      [some (7, 0), none, none, none, none, none, none, none] := by
    rw [insert_of_some hc1]
    show (with_capacity 8 : BinaryTree Nat Nat).mem.set
      ((with_capacity 8 : BinaryTree Nat Nat).find_index 7) (some (7, 0)) = _
    rw [hf1]
    decide
  have hocc0 : ((with_capacity 8 : BinaryTree Nat Nat).insert 7 0).1.mem[0]? =
      some (some (7, 0)) := by rw [e1]; rfl
  have hf2 : ((with_capacity 8 : BinaryTree Nat Nat).insert 7 0).1.find_index 7 = 0 :=
    find_index_from_found hocc0 rfl
  refine claim_C7 8 [(7, 0)] 7 0 1 ?_
  show ((with_capacity 8 : BinaryTree Nat Nat).insert 7 0).1.get 7 = some 0
  rw [get_eq, hf2, hocc0]
  rfl

/-- C8: fully exhausting the consuming iterator yields each occupied
slot's pair exactly once and leaves every slot empty; the generator
enumerates every index in `[0, capacity)`. -/
theorem claim_C8 (t : BinaryTree K V) (hcap : 1 ≤ t.capacity) :
    (runIter (t.capacity + 1) (BiTreeIndexIter.new t.capacity)).Perm
      (List.range t.capacity) ∧
    (t.toList).Perm (t.mem.filterMap id) ∧
    (drain t).2 = List.replicate t.capacity none := by
  refine ⟨?_, toList_perm hcap, drain_snd hcap⟩
  rw [runIter_new hcap (by omega)]
  exact inorderIdx_perm_range t.capacity

theorem claim_C8_witness :
    (runIter ((with_capacity 2 : BinaryTree Nat Nat).capacity + 1)
        (BiTreeIndexIter.new (with_capacity 2 : BinaryTree Nat Nat).capacity)).Perm
      (List.range (with_capacity 2 : BinaryTree Nat Nat).capacity) ∧
    ((with_capacity 2 : BinaryTree Nat Nat).toList).Perm
      ((with_capacity 2 : BinaryTree Nat Nat).mem.filterMap id) ∧
    (drain (with_capacity 2 : BinaryTree Nat Nat)).2 =
      List.replicate (with_capacity 2 : BinaryTree Nat Nat).capacity none :=
  claim_C8 (with_capacity 2) (by decide)

/-- C9: on every reachable tree, `get` returns exactly the stored value
for a present key and `none` for an absent one; being a pure function of
the tree, it performs no mutation, and an out-of-bounds walk exit also
yields `none`. -/
theorem claim_C9 (c : Nat) (ops : List (K × V)) (k : K) (v : V) :
    (buildTree c ops : BinaryTree K V).get k = some v ↔
      ∃ j : Nat, (buildTree c ops : BinaryTree K V).mem[j]? = some (some (k, v)) := by
  obtain ⟨hinv, -⟩ := buildTree_inv c ops
  exact get_eq_some_iff hinv k v

/-- C10: when the walk's target slot is in bounds, `insert` changes only
that slot: capacity and every other slot's content are untouched. -/
theorem claim_C10 (t : BinaryTree K V) (k : K) (v : V)
    (hin : t.find_index k < t.capacity) :
    (t.insert k v).1.capacity = t.capacity ∧
    ∀ j, j ≠ t.find_index k → (t.insert k v).1.mem[j]? = t.mem[j]? := by
  have hlen2 : t.find_index k < t.mem.length := hin
  obtain ⟨cell, hcell⟩ : ∃ c, t.mem[t.find_index k]? = some c :=
    ⟨t.mem[t.find_index k], List.getElem?_eq_getElem hlen2⟩
  rw [insert_of_some hcell]
  constructor
  · show (t.mem.set (t.find_index k) (some (k, v))).length = t.capacity
    rw [List.length_set]
    rfl
  · intro j hj
    show (t.mem.set (t.find_index k) (some (k, v)))[j]? = t.mem[j]?
    exact List.getElem?_set_ne (Ne.symm hj)

theorem claim_C10_witness :
    ((with_capacity 1 : BinaryTree Nat Nat).insert 5 9).1.capacity =
      (with_capacity 1 : BinaryTree Nat Nat).capacity :=
  (claim_C10 (with_capacity 1) 5 9 (by
    have h0 : (with_capacity 1 : BinaryTree Nat Nat).find_index 5 = 0 :=
      find_index_from_empty (by decide)
    rw [h0]
    decide)).1

end BinaryTree

end BinTreeRepo
